import Mathlib

/-!
Verification development for the `resolution` crate: discrete calendar
periods (minutes, days, weeks, months, quarters, years), the `TimeRange`
contiguous-range algebra, the partial-coverage `Cache`, and the DST-safe
`Zoned` local-time resolution.

Rust `i64` indices are modelled as `Int`, `u64`/`usize` lengths as `Nat`.
Rust truncating division `/` is `Int.tdiv`, `div_euclid` is `Int.ediv` and
`rem_euclid` is `Int.emod`.  `chrono::NaiveDate` is modelled as the day
number in the proleptic Gregorian calendar with 0000-01-01 as day 0
(matching `Day`'s documented epoch), and `DateTime<Utc>` as the Unix
timestamp in seconds.
-/

namespace Resolution

/-- Model of `chrono::NaiveDate::from_ymd` as a day number with
0000-01-01 as day 0 (proleptic Gregorian, via the standard
days-from-civil computation). -/
def days_from_civil (y m d : Int) : Int :=
  let yAdj := if m ≤ 2 then y - 1 else y
  let era := yAdj.ediv 400
  let yoe := yAdj - era * 400
  let mp := if 2 < m then m - 3 else m + 9
  let doy := (153 * mp + 2).ediv 5 + d - 1
  let doe := yoe * 365 + yoe.ediv 4 - yoe.ediv 100 + doy
  era * 146097 + doe + 60

/-- Model of `chrono::NaiveDate` field access: recovers `(year, month, day)`
from a day number (inverse of `days_from_civil`). -/
def civil_from_days (z : Int) : Int × Int × Int :=
  let z' := z - 60
  let era := z'.ediv 146097
  let doe := z' - era * 146097
  let yoe := (doe - doe.ediv 1460 + doe.ediv 36524 - doe.ediv 146096).ediv 365
  let y := yoe + era * 400
  let doy := doe - (365 * yoe + yoe.ediv 4 - yoe.ediv 100)
  let mp := (5 * doy + 2).ediv 153
  let d := doy - (153 * mp + 2).ediv 5 + 1
  let m := if mp < 10 then mp + 3 else mp - 9
  (if m ≤ 2 then y + 1 else y, m, d)

/-- Model of `NaiveDate::year()`. -/
def date_year (z : Int) : Int := (civil_from_days z).1

/-- Model of `NaiveDate::month()`. -/
def date_month (z : Int) : Int := (civil_from_days z).2.1

/-- Unix timestamp (seconds) of midnight of a given day number:
model of `date.and_time(NaiveTime::MIN).and_utc().timestamp()`. -/
def date_timestamp (z : Int) : Int := (z - 719528) * 86400

/-- Day number of a timestamp: model of `DateTime::date_naive()`
(floor division, as `chrono` floors towards past days). -/
def timestamp_date (ts : Int) : Int := 719528 + ts.ediv 86400

/-!
The trait `TimeResolution: Copy + Eq + Ord + Monotonic` (src/lib.rs) with its
documented contract: `to_monotonic` is an order preserving bijection onto the
`i64` indices, `succ_n`/`pred_n` shift the index, and
`between(a, b) = to_monotonic(b) - to_monotonic(a)`.  Each embedded kind
proves the contract fields from its concrete definitions.
`start_datetime` returns the Unix timestamp of the period's start instant.
-/

class TimeResolution (P : Type) extends LinearOrder P where
  succ_n : P → Nat → P
  pred_n : P → Nat → P
  to_monotonic : P → Int
  between : P → P → Int
  start_datetime : P → Int
  monotonic_inj : ∀ a b : P, to_monotonic a = to_monotonic b → a = b
  le_iff : ∀ a b : P, a ≤ b ↔ to_monotonic a ≤ to_monotonic b
  between_spec : ∀ a b : P, between a b = to_monotonic b - to_monotonic a
  succ_n_spec : ∀ (a : P) (n : Nat), to_monotonic (succ_n a n) = to_monotonic a + n
  pred_n_spec : ∀ (a : P) (n : Nat), to_monotonic (pred_n a n) = to_monotonic a - n

export TimeResolution (succ_n pred_n to_monotonic between start_datetime)

/-- Default method `succ` of the `TimeResolution` trait. -/
def succ {P : Type} [TimeResolution P] (p : P) : P := succ_n p 1

/-- Default method `pred` of the `TimeResolution` trait. -/
def pred {P : Type} [TimeResolution P] (p : P) : P := pred_n p 1

/-- Trait `FromMonotonic` (src/lib.rs). -/
class FromMonotonic (P : Type) [TimeResolution P] where
  from_monotonic : Int → P
  from_monotonic_spec : ∀ i : Int, to_monotonic (from_monotonic i) = i

export FromMonotonic (from_monotonic)

/-- Trait method `From<DateTime<Utc>>`, used by `TimeRange::rescale` and
`TimeResolution::convert`. -/
class FromDatetime (P : Type) where
  from_datetime : Int → P

export FromDatetime (from_datetime)

/-!  Concrete kinds.  Every kind stores its `i64` monotonic index.  -/

/-- The `Day` kind (src/day.rs): `Day(i64)`, epoch 0000-01-01. -/
structure Day where
  idx : Int
deriving DecidableEq, Repr

/-- The `Week` kind (src/week.rs): `Week<D: StartDay>`, here indexed by
`sd = D::weekday().num_days_from_monday() ∈ [0, 6]`. -/
structure Week (sd : Nat) where
  n : Int
deriving DecidableEq, Repr

/-- Week base date (src/week.rs `base`): 2021-01-04 + days-from-Monday. -/
def week_base (sd : Nat) : Int := days_from_civil 2021 1 (4 + sd)

/-- The `Month` kind (src/month.rs): `Month(i64)`, months since 0AD. -/
structure Month where
  idx : Int
deriving DecidableEq, Repr

/-- The `Quarter` kind (src/quarter.rs): `Quarter(i64)`. -/
structure Quarter where
  idx : Int
deriving DecidableEq, Repr

/-- The `Year` kind (src/year.rs): `Year(i64)`. -/
structure Year where
  idx : Int
deriving DecidableEq, Repr

/-- The `Minutes<const N: u32>` kind (src/minutes.rs). -/
structure Minutes (N : Nat) where
  index : Int
deriving DecidableEq, Repr

instance : LinearOrder Day :=
  LinearOrder.lift' Day.idx (fun a b h => by cases a; cases b; simpa using h)

instance {sd : Nat} : LinearOrder (Week sd) :=
  LinearOrder.lift' Week.n (fun a b h => by cases a; cases b; simpa using h)

instance : LinearOrder Month :=
  LinearOrder.lift' Month.idx (fun a b h => by cases a; cases b; simpa using h)

instance : LinearOrder Quarter :=
  LinearOrder.lift' Quarter.idx (fun a b h => by cases a; cases b; simpa using h)

instance : LinearOrder Year :=
  LinearOrder.lift' Year.idx (fun a b h => by cases a; cases b; simpa using h)

instance {N : Nat} : LinearOrder (Minutes N) :=
  LinearOrder.lift' Minutes.index (fun a b h => by cases a; cases b; simpa using h)

/-- Method `DateResolution::start` for `Day`: `base() + Duration::days(self.0)`. -/
def Day.start (p : Day) : Int := days_from_civil 0 1 1 + p.idx

/-- Method `DateResolution::from_date` for `Day`: `(date - base()).num_days()`. -/
def Day.from_date (date : Int) : Day := ⟨date - days_from_civil 0 1 1⟩

instance : TimeResolution Day where
  succ_n p n := ⟨p.idx + n⟩
  pred_n p n := ⟨p.idx - n⟩
  to_monotonic p := p.idx
  between a b := b.idx - a.idx
  start_datetime p := date_timestamp p.start
  monotonic_inj a b h := by cases a; cases b; simpa using h
  le_iff a b := Iff.rfl
  between_spec a b := rfl
  succ_n_spec a n := rfl
  pred_n_spec a n := rfl

instance : FromMonotonic Day where
  from_monotonic i := ⟨i⟩
  from_monotonic_spec i := rfl

instance : FromDatetime Day where
  from_datetime ts := Day.from_date (timestamp_date ts)

/-- Method `DateResolution::start` for `Week<D>`:
`base(D::weekday()) + Duration::days(self.n * 7)`. -/
def Week.start {sd : Nat} (p : Week sd) : Int := week_base sd + p.n * 7

/-- Method `DateResolution::from_date` for `Week<D>`:
`(date - base(D::weekday())).num_days() / 7` with Rust truncating division. -/
def Week.from_date (sd : Nat) (date : Int) : Week sd :=
  ⟨(date - week_base sd).tdiv 7⟩

instance {sd : Nat} : TimeResolution (Week sd) where
  succ_n p n := ⟨p.n + n⟩
  pred_n p n := ⟨p.n - n⟩
  to_monotonic p := p.n
  between a b := b.n - a.n
  start_datetime p := date_timestamp p.start
  monotonic_inj a b h := by cases a; cases b; simpa using h
  le_iff a b := Iff.rfl
  between_spec a b := rfl
  succ_n_spec a n := rfl
  pred_n_spec a n := rfl

instance {sd : Nat} : FromMonotonic (Week sd) where
  from_monotonic i := ⟨i⟩
  from_monotonic_spec i := rfl

/-- Method `DateResolution::start` for `Month`: year `div_euclid 12`,
month `1 + rem_euclid 12`, day 1. -/
def Month.start (p : Month) : Int :=
  days_from_civil (p.idx.ediv 12) (1 + p.idx.emod 12) 1

/-- Method `DateResolution::from_date` for `Month`:
`month0 + year * 12`. -/
def Month.from_date (date : Int) : Month :=
  ⟨(date_month date - 1) + date_year date * 12⟩

instance : TimeResolution Month where
  succ_n p n := ⟨p.idx + n⟩
  pred_n p n := ⟨p.idx - n⟩
  to_monotonic p := p.idx
  between a b := b.idx - a.idx
  start_datetime p := date_timestamp p.start
  monotonic_inj a b h := by cases a; cases b; simpa using h
  le_iff a b := Iff.rfl
  between_spec a b := rfl
  succ_n_spec a n := rfl
  pred_n_spec a n := rfl

instance : FromMonotonic Month where
  from_monotonic i := ⟨i⟩
  from_monotonic_spec i := rfl

instance : FromDatetime Month where
  from_datetime ts := Month.from_date (timestamp_date ts)

/-- Quarter number of a date (src/quarter.rs `quarter_num`): 1..=4 by month. -/
def quarter_num_of_date (date : Int) : Int := (date_month date - 1).ediv 3 + 1

/-- Method `DateResolution::start` for `Quarter`: year `div_euclid 4`,
month `quarter_num * 3 - 2`, day 1, where `quarter_num = 1 + rem_euclid 4`. -/
def Quarter.start (p : Quarter) : Int :=
  days_from_civil (p.idx.ediv 4) ((1 + p.idx.emod 4) * 3 - 2) 1

/-- Construction `From<NaiveDate>` for `Quarter`:
`quarter_num(d) - 1 + year * 4`. -/
def Quarter.from_date (date : Int) : Quarter :=
  ⟨quarter_num_of_date date - 1 + date_year date * 4⟩

instance : TimeResolution Quarter where
  succ_n p n := ⟨p.idx + n⟩
  pred_n p n := ⟨p.idx - n⟩
  to_monotonic p := p.idx
  between a b := b.idx - a.idx
  start_datetime p := date_timestamp p.start
  monotonic_inj a b h := by cases a; cases b; simpa using h
  le_iff a b := Iff.rfl
  between_spec a b := rfl
  succ_n_spec a n := rfl
  pred_n_spec a n := rfl

instance : FromMonotonic Quarter where
  from_monotonic i := ⟨i⟩
  from_monotonic_spec i := rfl

/-- Method `DateResolution::start` for `Year`: January 1 of the year. -/
def Year.start (p : Year) : Int := days_from_civil p.idx 1 1

/-- Method `DateResolution::from_date` for `Year`: the date's year. -/
def Year.from_date (date : Int) : Year := ⟨date_year date⟩

instance : TimeResolution Year where
  succ_n p n := ⟨p.idx + n⟩
  pred_n p n := ⟨p.idx - n⟩
  to_monotonic p := p.idx
  between a b := b.idx - a.idx
  start_datetime p := date_timestamp p.start
  monotonic_inj a b h := by cases a; cases b; simpa using h
  le_iff a b := Iff.rfl
  between_spec a b := rfl
  succ_n_spec a n := rfl
  pred_n_spec a n := rfl

instance : FromMonotonic Year where
  from_monotonic i := ⟨i⟩
  from_monotonic_spec i := rfl

instance : FromDatetime Year where
  from_datetime ts := Year.from_date (timestamp_date ts)

instance {N : Nat} : TimeResolution (Minutes N) where
  succ_n p n := ⟨p.index + n⟩
  pred_n p n := ⟨p.index - n⟩
  to_monotonic p := p.index
  between a b := b.index - a.index
  start_datetime p := p.index * 60 * N
  monotonic_inj a b h := by cases a; cases b; simpa using h
  le_iff a b := Iff.rfl
  between_spec a b := rfl
  succ_n_spec a n := rfl
  pred_n_spec a n := rfl

instance {N : Nat} : FromMonotonic (Minutes N) where
  from_monotonic i := ⟨i⟩
  from_monotonic_spec i := rfl

instance {N : Nat} : FromDatetime (Minutes N) where
  from_datetime ts := ⟨ts.ediv (60 * N)⟩

/-- The `Zoned<R, Z>` wrapper (src/zoned.rs): the local-time resolution value
plus a fixed offset snapshot and the zone (zones modelled by an opaque
identifier, unused by `succ_n`/`pred_n`). -/
structure Zoned (P : Type) where
  local_resolution : P
  current_offset : Int
  zone : Int
deriving DecidableEq

/-- Method `TimeResolution::succ_n` for `Zoned`: advances the wrapped local
resolution, carrying offset and zone through unchanged. -/
def Zoned.succ_n {P : Type} [TimeResolution P] (z : Zoned P) (n : Nat) : Zoned P :=
  { z with local_resolution := TimeResolution.succ_n z.local_resolution n }

/-- Method `TimeResolution::pred_n` for `Zoned`. -/
def Zoned.pred_n {P : Type} [TimeResolution P] (z : Zoned P) (n : Nat) : Zoned P :=
  { z with local_resolution := TimeResolution.pred_n z.local_resolution n }

/-!  The `TimeRange` contiguous-range algebra (src/range.rs).  -/

/-- Type `TimeRange<P>` (src/range.rs): a start period plus a
`NonZeroU64` length, the length modelled as `Nat` (nonzeroness is carried
as a hypothesis where a theorem needs it). -/
structure TimeRange (P : Type) where
  start : P
  len : Nat
deriving DecidableEq, Repr

/-- Method `TimeRange::end`: `start.succ_n(len - 1)`. -/
def TimeRange.end_ {P : Type} [TimeResolution P] (r : TimeRange P) : P :=
  succ_n r.start (r.len - 1)

/-- Loop body of `TimeRange::from_map`: walks the remaining sorted indices
with the previous index, the range being grown, and the ranges already
emitted.  Mirrors the source exactly: growing on `val == prev + 1`,
otherwise swapping in a fresh one-element range at `val` and pushing the
finished range unless an identical one was already pushed.  The source's
`saturating_add(1)` is `+ 1` (`Nat` does not overflow).  Note the loop
never pushes the final `current_range` after the iterator is exhausted. -/
def from_map_go (P : Type) [TimeResolution P] [FromMonotonic P] [DecidableEq P] :
    List Int → Int → TimeRange P → List (TimeRange P) → List (TimeRange P)
  | [], _, _, ranges => ranges
  | val :: iter, prev, current_range, ranges =>
    if val = prev + 1 then
      from_map_go P iter val { current_range with len := current_range.len + 1 } ranges
    else
      let old_range := current_range
      from_map_go P iter val ⟨from_monotonic val, 1⟩
        (if old_range ∈ ranges then ranges else ranges ++ [old_range])

/-- Method `TimeRange::from_map` (spec name `from_sorted_index_set`): the
input `BTreeSet<i64>` is modelled as its strictly ascending list of
elements. -/
def from_map (P : Type) [TimeResolution P] [FromMonotonic P] [DecidableEq P]
    (map : List Int) : List (TimeRange P) :=
  match map with
  | [] => []
  | prev :: iter => from_map_go P iter prev ⟨from_monotonic prev, 1⟩ []

/-- Method `TimeRange::from_set`: `None` when the length does not fit in a
`u32` or the set is empty, otherwise the first (smallest) element and the
set's size. -/
def from_set {P : Type} (set : List P) : Option (TimeRange P) :=
  if 4294967295 < set.length then none
  else
    match set with
    | [] => none
    | x :: xs => some ⟨x, (x :: xs).length⟩

/-- Method `TimeRange::from_bounds`.  Both arms of the source's `if` set
`start: a`; only the length uses the swapped distance.  The
`u64::try_from(between).unwrap()` is modelled by `Int.toNat`. -/
def from_bounds {P : Type} [TimeResolution P] (a b : P) : TimeRange P :=
  if a ≤ b then ⟨a, 1 + (between a b).toNat⟩
  else ⟨a, 1 + (between b a).toNat⟩

/-- Method `TimeRange::intersection`. -/
def intersection {P : Type} [TimeResolution P] (x y : TimeRange P) :
    Option (TimeRange P) :=
  let max_start := max x.start y.start
  let min_end := min x.end_ y.end_
  if max_start ≤ min_end then some (from_bounds max_start min_end) else none

/-- Method `TimeRange::union`: defined only when the intersection is. -/
def union {P : Type} [TimeResolution P] (x y : TimeRange P) :
    Option (TimeRange P) :=
  if (intersection x y).isSome then
    some (from_bounds (min x.start y.start) (max x.end_ y.end_))
  else none

/-- Method `TimeRange::rescale<Out>`: exact start instant forward, and the
predecessor of `Out` derived from the successor period's start instant. -/
def TimeRange.rescale {P : Type} (Out : Type) [TimeResolution P]
    [TimeResolution Out] [FromDatetime Out] (r : TimeRange P) : TimeRange Out :=
  let start : Out := from_datetime (start_datetime r.start)
  let e : Out := pred (from_datetime (start_datetime (succ r.end_)))
  from_bounds start e

/-!  The partial-coverage `Cache` (src/range.rs).  `BTreeSet<K>` and
`BTreeMap<K, T>` are modelled as their ascending lists of elements /
entries.  -/

/-- Loop body of `missing_pieces`: walks the requested keys with the
emitted groups and the group being accumulated.  A key already in
`requests` closes the current group (emitted only when non-empty); the
`BTreeSet::insert` of an ascending walk into a freshly emptied set is an
append at the end. -/
def missing_pieces_go {K : Type} [DecidableEq K] (requests : List K) :
    List K → List (List K) → List K → List (List K)
  | [], to_request, current_request =>
      if current_request = [] then to_request else to_request ++ [current_request]
  | requested :: rest, to_request, current_request =>
      if requested ∈ requests then
        if current_request = [] then
          missing_pieces_go requests rest to_request []
        else
          missing_pieces_go requests rest (to_request ++ [current_request]) []
      else
        missing_pieces_go requests rest to_request (current_request ++ [requested])

/-- Function `missing_pieces` (src/range.rs): groups the keys of `request`
missing from `requests` into contiguous runs, emitting the final group. -/
def missing_pieces {K : Type} [DecidableEq K]
    (request : List K) (requests : List K) : List (List K) :=
  missing_pieces_go requests request [] []

/-- Type `Cache<K, T>` (src/range.rs). -/
structure Cache (K V : Type) where
  data : List (K × V)
  requests : List K

/-- Type `CacheResponse<K, T>` (src/range.rs). -/
inductive CacheResponse (K V : Type) where
  | Hit (m : List (K × V))
  | Miss (groups : List (List K))
deriving DecidableEq

/-- Method `Cache::get`: empty request is a `Hit` of the empty map; a
request fully covered by `requests` is a `Hit` of the cached entries
between the request's first and last key; anything else is a `Miss` of
`missing_pieces`. -/
def Cache.get {K V : Type} [LinearOrder K] [DecidableEq K]
    (c : Cache K V) (request : List K) : CacheResponse K V :=
  match request with
  | [] => .Hit []
  | q :: qs =>
      if (q :: qs).all (fun k => decide (k ∈ c.requests)) then
        .Hit ((c.data.filter (fun kv =>
          decide (q ≤ kv.1) && decide (kv.1 ≤ (q :: qs).getLast (List.cons_ne_nil q qs)))))
      else
        .Miss (missing_pieces (q :: qs) c.requests)

/-- Method `Cache::empty`. -/
def Cache.empty (K V : Type) : Cache K V := ⟨[], []⟩

/-!  The `Zoned` date-level offset scan (src/zoned.rs).  A timezone is
modelled by its civil-to-UTC mapping at minute granularity: a function
from a local wall-clock minute number to the `chrono::LocalResult` of
fixed offsets (in minutes) at which that local time exists.  -/

/-- Model of `chrono::LocalResult` (the result of `and_local_timezone`). -/
inductive LocalResult (α : Type) where
  | none
  | single (a : α)
  | ambiguous (earliest latest : α)
deriving DecidableEq

/-- Model of `chrono::LocalResult::single()`: `Some` only for a unique
mapping; gaps and ambiguous (fall-back) local times give `None`. -/
def LocalResult.single? {α : Type} : LocalResult α → Option α
  | .single a => some a
  | _ => Option.none

/-- Function `local_offset_at_start_of_date` (src/zoned.rs): scans local
midnight plus 0..=240 minutes, keeps the offsets of candidates whose
civil-to-UTC mapping is unique (`single`), and takes the first.  The
source's `.next().unwrap()` is modelled as `head?` (`none` models the
panic). -/
def local_offset_at_start_of_date (tz : Int → LocalResult Int)
    (midnight : Int) : Option Int :=
  ((List.range 241).filterMap (fun m => (tz (midnight + m)).single?)).head?

/-- UTC start instant (in local-minute units) that `Zoned::from_date`
produces for the date: local midnight shifted by the captured offset, as
in `utc_start_datetime`. -/
def zoned_utc_start_of_date (tz : Int → LocalResult Int)
    (midnight : Int) : Option Int :=
  (local_offset_at_start_of_date tz midnight).map (fun o => midnight - o)

/-- Modelled from the spec's words (claim C3), for comparison with
`local_offset_at_start_of_date`: step forward from local midnight in
1-minute increments bounded to one day's worth of minutes; a candidate in
a spring-forward gap is skipped, a unique mapping is the answer, and a
fall-back ambiguity resolves to the occurrence whose underlying UTC
instant is earlier. -/
def spec_offset_at_start_of_date (tz : Int → LocalResult Int)
    (midnight : Int) : Option Int :=
  (List.range 1440).findSome? fun m =>
    match tz (midnight + m) with
    | .none => Option.none
    | .single o => some o
    | .ambiguous o1 o2 =>
        some (if midnight + m - o1 ≤ midnight + m - o2 then o1 else o2)

/-- UTC start instant under the spec's procedure. -/
def spec_utc_start_of_date (tz : Int → LocalResult Int)
    (midnight : Int) : Option Int :=
  (spec_offset_at_start_of_date tz midnight).map (fun o => midnight - o)

/-- Amended description of the scan: bounded to the 241 minutes 0..=240,
skipping candidates whose mapping is not unique (gaps and fall-back
ambiguities alike); the first unique mapping provides the offset. -/
def amended_offset_at_start_of_date (tz : Int → LocalResult Int)
    (midnight : Int) : Option Int :=
  (List.range 241).findSome? fun m => (tz (midnight + m)).single?

/-- A timezone whose clocks fall back 60 minutes at 01:00 local time on
the scanned date (as Cuba does), making local midnight ambiguous: local
minutes 0..=59 of the date occur at offset -240 and again at offset -300,
and later local times are at -300. -/
def fallback_at_midnight_tz : Int → LocalResult Int := fun t =>
  if t < 0 then .single (-240)
  else if t < 60 then .ambiguous (-240) (-300)
  else .single (-300)

/-- A timezone that springs forward six hours at midnight of the scanned
date: local minutes 0..359 of the date do not exist. -/
def long_gap_tz : Int → LocalResult Int := fun t =>
  if t < 0 then .single 0
  else if t < 360 then .none
  else .single 360

/-!  Helper lemmas.  -/

theorem pred_succ {P : Type} [TimeResolution P] (p : P) : pred (succ p) = p := by
  apply TimeResolution.monotonic_inj
  rw [pred, succ, TimeResolution.pred_n_spec, TimeResolution.succ_n_spec]
  simp

theorem succ_pred {P : Type} [TimeResolution P] (p : P) : succ (pred p) = p := by
  apply TimeResolution.monotonic_inj
  rw [succ, pred, TimeResolution.succ_n_spec, TimeResolution.pred_n_spec]
  simp

theorem head?_filterMap_eq_findSome? {α β : Type} (f : α → Option β) (l : List α) :
    (l.filterMap f).head? = l.findSome? f := by
  induction l with
  | nil => rfl
  | cons a t ih =>
      cases h : f a <;>
        simp [List.filterMap_cons, List.findSome?_cons, h, ih]

theorem sorted_head_le {K : Type} [LinearOrder K] (q : K) (qs : List K)
    (h : (q :: qs).Sorted (· < ·)) : ∀ x ∈ q :: qs, q ≤ x := by
  intro x hx
  rcases List.mem_cons.mp hx with rfl | hx
  · exact le_refl x
  · exact le_of_lt ((List.sorted_cons.mp h).1 x hx)

theorem sorted_le_getLast {K : Type} [LinearOrder K] (l : List K)
    (h : l.Sorted (· < ·)) (hne : l ≠ []) : ∀ x ∈ l, x ≤ l.getLast hne := by
  induction l with
  | nil => exact absurd rfl hne
  | cons a t ih =>
      intro x hx
      rcases List.mem_cons.mp hx with rfl | hx
      · match t, h with
        | [], _ => simp
        | b :: t', h =>
            rw [List.getLast_cons (by simp)]
            exact le_of_lt ((List.sorted_cons.mp h).1 _ (List.getLast_mem (by simp)))
      · match t, hx with
        | b :: t', hx =>
            rw [List.getLast_cons (by simp)]
            exact ih (List.sorted_cons.mp h).2 (by simp) x hx

theorem missing_pieces_go_flatten {K : Type} [DecidableEq K]
    (requests : List K) (rest : List K) (acc : List (List K)) (cur : List K) :
    (missing_pieces_go requests rest acc cur).flatten =
      acc.flatten ++ cur ++ rest.filter (fun k => !decide (k ∈ requests)) := by
  induction rest generalizing acc cur with
  | nil =>
      by_cases hc : cur = [] <;>
        simp [missing_pieces_go, hc, List.flatten_append]
  | cons r t ih =>
      by_cases hr : r ∈ requests
      · by_cases hc : cur = [] <;>
          simp [missing_pieces_go, hr, hc, ih, List.filter_cons,
            List.flatten_append, List.append_assoc]
      · simp [missing_pieces_go, hr, ih, List.filter_cons, List.append_assoc]

theorem missing_pieces_go_ne_nil {K : Type} [DecidableEq K]
    (requests : List K) (rest : List K) (acc : List (List K)) (cur : List K)
    (hacc : ∀ g ∈ acc, g ≠ []) :
    ∀ g ∈ missing_pieces_go requests rest acc cur, g ≠ [] := by
  induction rest generalizing acc cur with
  | nil =>
      intro g hg
      by_cases hc : cur = []
      · rw [missing_pieces_go, if_pos hc] at hg
        exact hacc g hg
      · rw [missing_pieces_go, if_neg hc] at hg
        rcases List.mem_append.mp hg with hg | hg
        · exact hacc g hg
        · simpa using (List.mem_singleton.mp hg) ▸ hc
  | cons r t ih =>
      intro g hg
      by_cases hr : r ∈ requests
      · by_cases hc : cur = []
        · rw [missing_pieces_go, if_pos (by simpa using hr), if_pos hc] at hg
          exact ih acc [] hacc g hg
        · rw [missing_pieces_go, if_pos (by simpa using hr), if_neg hc] at hg
          refine ih (acc ++ [cur]) [] ?_ g hg
          intro g' hg'
          rcases List.mem_append.mp hg' with hg' | hg'
          · exact hacc g' hg'
          · exact (List.mem_singleton.mp hg') ▸ hc
      · rw [missing_pieces_go, if_neg (by simpa using hr)] at hg
        exact ih acc (cur ++ [r]) hacc g hg

/-!  Claims.  -/

/-- Claim C1.  The claim states `from_map` partitions a sorted unique index
set into all maximal contiguous runs, every input index lying in exactly
one returned range.  The code never pushes the final run after the loop:
the fully contiguous input `{1, 2, 3}` yields no ranges at all, and
`{1, 2, 3, 7, 8, 10}` yields only the two runs before the last one. -/
theorem C1_from_map_drops_final_run :
    from_map Day [1, 2, 3] = [] ∧
    from_map Day [1, 2, 3, 7, 8, 10] = [⟨⟨1⟩, 3⟩, ⟨⟨7⟩, 2⟩] := by
  decide

/-- Claim C2.  The claim states `from_bounds(a, b)` spans the lower of
`{a, b}` to the higher even when `a > b`.  The code sets `start: a` in both
arms of its `if`, so `from_bounds(Day 5, Day 3)` starts at `Day 5` (with the
swapped length 3), not at the lower bound `Day 3`. -/
theorem C2_from_bounds_keeps_higher_start :
    from_bounds (Day.mk 5) (Day.mk 3) = ⟨⟨5⟩, 3⟩ ∧
    (from_bounds (Day.mk 5) (Day.mk 3)).start ≠ min (Day.mk 5) (Day.mk 3) := by
  decide

set_option maxRecDepth 10000 in
/-- Claim C3, counterexample.  The claim states the scan is bounded to one
day's worth of minutes and that a fall-back ambiguity resolves to the
occurrence with the earlier UTC instant.  In a zone whose clocks fall back
at 01:00 local (midnight ambiguous), the code skips the ambiguous
candidates and captures the post-transition offset -300, whereas the
claim's procedure picks the earlier UTC occurrence at offset -240; and in
a zone with a six-hour spring-forward gap at midnight the code exhausts
its 0..=240 window (the `unwrap` panics, modelled as `none`) whereas the
claim's day-long scan succeeds. -/
theorem C3_counterexample_scan :
    (zoned_utc_start_of_date fallback_at_midnight_tz 0 = some 300 ∧
      spec_utc_start_of_date fallback_at_midnight_tz 0 = some 240) ∧
    (local_offset_at_start_of_date long_gap_tz 0 = Option.none ∧
      spec_offset_at_start_of_date long_gap_tz 0 = some 360) := by
  decide

/-- Claim C3, amended.  For a date-level `Zoned` value the UTC start
instant is resolved by stepping forward from local midnight in 1-minute
increments bounded to the 241 minutes 0..=240, skipping every candidate
local time whose civil-to-UTC mapping is not unique — spring-forward gaps
and fall-back ambiguities alike — and capturing the offset of the first
uniquely mapped candidate (no resolution within the window is a panic). -/
theorem C3_amended_offset_scan (tz : Int → LocalResult Int) (midnight : Int) :
    local_offset_at_start_of_date tz midnight =
      amended_offset_at_start_of_date tz midnight ∧
    zoned_utc_start_of_date tz midnight =
      (amended_offset_at_start_of_date tz midnight).map (fun o => midnight - o) := by
  have h := head?_filterMap_eq_findSome?
    (fun m => (tz (midnight + m)).single?) (List.range 241)
  refine ⟨h, ?_⟩
  show (local_offset_at_start_of_date tz midnight).map (fun o => midnight - o) = _
  rw [show local_offset_at_start_of_date tz midnight =
    amended_offset_at_start_of_date tz midnight from h]

/-- Claim C4.  The claim states `R::from_date(d).start() ≤ d ≤ end()` for
every date-level kind.  `Week::from_date` divides with Rust truncating
division, so for the Sunday 2021-01-03 (one day before the Monday-week
base) the constructed Monday-start week begins 2021-01-04, after the
input date. -/
theorem C4_week_from_date_start_after_date :
    (Week.from_date 0 (days_from_civil 2021 1 3)).start = days_from_civil 2021 1 4 ∧
    ¬ (Week.from_date 0 (days_from_civil 2021 1 3)).start ≤ days_from_civil 2021 1 3 := by
  decide

/-- Claim C5.  `missing_pieces` walks the request in ascending order,
accumulating keys absent from `known_requests` into groups, closing a
group at each already-known key, and emitting the final group: the
emitted groups concatenate to exactly the unknown keys in order, every
emitted group is non-empty, and the spec's example
`missing_pieces({1..10}, {2,3,7,8}) = [{1}, {4,5,6}, {9,10}]` holds. -/
theorem C5_missing_pieces_walk :
    missing_pieces ([1,2,3,4,5,6,7,8,9,10] : List Int) [2,3,7,8] =
      [[1], [4,5,6], [9,10]] ∧
    (∀ (K : Type) (inst : DecidableEq K) (request requests : List K),
      (missing_pieces request requests).flatten =
        request.filter (fun k => !decide (k ∈ requests))) ∧
    (∀ (K : Type) (inst : DecidableEq K) (request requests : List K),
      ∀ g ∈ missing_pieces request requests, g ≠ []) := by
  refine ⟨by decide, ?_, ?_⟩
  · intro K _ request requests
    simpa [missing_pieces] using missing_pieces_go_flatten requests request [] []
  · intro K _ request requests
    exact missing_pieces_go_ne_nil requests request [] [] (by simp)

/-- Claim C5, witness: the group `{1}` emitted for the spec's example is
non-empty, by the claim theorem applied at that example. -/
theorem C5_missing_pieces_walk_witness : ([1] : List Int) ≠ [] :=
  C5_missing_pieces_walk.2.2 Int inferInstance
    [1,2,3,4,5,6,7,8,9,10] [2,3,7,8] [1] (by decide)

/-- Claim C6.  `Cache::get` returns `Hit` of the empty map for an empty
request regardless of cache state; when the recorded requests cover the
request it returns `Hit` of exactly the cached entries whose key lies
between the request's minimum and maximum (which may include keys not in
the request); otherwise it returns `Miss` of `missing_pieces`. -/
theorem C6_cache_get_cases {K V : Type} [LinearOrder K] [DecidableEq K]
    (c : Cache K V) (request : List K) (hs : request.Sorted (· < ·)) :
    (request = [] → c.get request = .Hit []) ∧
    (request ≠ [] → (∀ k ∈ request, k ∈ c.requests) →
      ∃ m, c.get request = .Hit m ∧
        ∀ kv : K × V, kv ∈ m ↔ kv ∈ c.data ∧
          (∃ a ∈ request, a ≤ kv.1) ∧ (∃ b ∈ request, kv.1 ≤ b)) ∧
    (request ≠ [] → ¬ (∀ k ∈ request, k ∈ c.requests) →
      c.get request = .Miss (missing_pieces request c.requests)) := by
  refine ⟨?_, ?_, ?_⟩
  · intro h
    subst h
    rfl
  · intro hne hsup
    match request, hs with
    | q :: qs, hs =>
        have hall : ((q :: qs).all (fun k => decide (k ∈ c.requests))) = true := by
          rw [List.all_eq_true]
          intro k hk
          exact decide_eq_true (hsup k hk)
        refine ⟨c.data.filter (fun kv =>
          decide (q ≤ kv.1) && decide (kv.1 ≤ (q :: qs).getLast (List.cons_ne_nil q qs))),
          ?_, ?_⟩
        · show (if ((q :: qs).all fun k => decide (k ∈ c.requests)) = true
            then CacheResponse.Hit (c.data.filter (fun kv =>
              decide (q ≤ kv.1) && decide (kv.1 ≤ (q :: qs).getLast (List.cons_ne_nil q qs))))
            else CacheResponse.Miss (missing_pieces (q :: qs) c.requests)) = _
          rw [if_pos hall]
        · intro kv
          rw [List.mem_filter]
          constructor
          · rintro ⟨hd, hb⟩
            rw [Bool.and_eq_true, decide_eq_true_eq, decide_eq_true_eq] at hb
            exact ⟨hd, ⟨q, List.mem_cons_self q qs, hb.1⟩,
              ⟨(q :: qs).getLast (List.cons_ne_nil q qs), List.getLast_mem _, hb.2⟩⟩
          · rintro ⟨hd, ⟨a, ha, hak⟩, ⟨b, hb, hkb⟩⟩
            refine ⟨hd, ?_⟩
            rw [Bool.and_eq_true, decide_eq_true_eq, decide_eq_true_eq]
            exact ⟨le_trans (sorted_head_le q qs hs a ha) hak,
              le_trans hkb (sorted_le_getLast (q :: qs) hs (List.cons_ne_nil q qs) b hb)⟩
  · intro hne hsup
    match request with
    | q :: qs =>
        have hall : ¬ ((q :: qs).all (fun k => decide (k ∈ c.requests))) = true := by
          intro h
          rw [List.all_eq_true] at h
          exact hsup (fun k hk => of_decide_eq_true (h k hk))
        show (if ((q :: qs).all fun k => decide (k ∈ c.requests)) = true
          then CacheResponse.Hit (c.data.filter (fun kv =>
            decide (q ≤ kv.1) && decide (kv.1 ≤ (q :: qs).getLast (List.cons_ne_nil q qs))))
          else CacheResponse.Miss (missing_pieces (q :: qs) c.requests)) = _
        rw [if_neg hall]

/-- Claim C6, witness: the three branches of the claim theorem applied to a
concrete cache holding data `{1 ↦ 10, 2 ↦ 20, 3 ↦ 30}` with recorded
requests `{1, 2, 3, 4}`: the covered request `{1, 3}` hits (and the hit
map is characterised by the bounding range, so it contains the entry for
key 2), the empty request hits with the empty map, and the uncovered
request `{0, 1}` misses with its missing pieces. -/
theorem C6_cache_get_cases_witness :
    (∃ m, Cache.get (⟨[(1,10),(2,20),(3,30)], [1,2,3,4]⟩ : Cache Int Int) [1,3] =
        .Hit m ∧
      ∀ kv : Int × Int, kv ∈ m ↔ kv ∈ [(1,10),(2,20),(3,30)] ∧
        (∃ a ∈ [1,3], a ≤ kv.1) ∧ (∃ b ∈ [1,3], kv.1 ≤ b)) ∧
    Cache.get (⟨[(1,10),(2,20),(3,30)], [1,2,3,4]⟩ : Cache Int Int) [] = .Hit [] ∧
    Cache.get (⟨[(1,10),(2,20),(3,30)], [1,2,3,4]⟩ : Cache Int Int) [0,1] =
      .Miss (missing_pieces [0,1] [1,2,3,4]) :=
  ⟨(C6_cache_get_cases ⟨[(1,10),(2,20),(3,30)], [1,2,3,4]⟩ [1,3] (by decide)).2.1
      (by decide) (by decide),
   (C6_cache_get_cases ⟨[(1,10),(2,20),(3,30)], [1,2,3,4]⟩ [] (by decide)).1 rfl,
   (C6_cache_get_cases ⟨[(1,10),(2,20),(3,30)], [1,2,3,4]⟩ [0,1] (by decide)).2.2
      (by decide) (by decide)⟩

/-- Claim C7.  `union(x, y)` is defined exactly when `intersection(x, y)`
is (the intersection being non-empty exactly when the ranges overlap:
`max(starts) ≤ min(ends)`); a defined union spans `min(starts)` through
`max(ends)`; and adjacent but non-overlapping ranges yield no union. -/
theorem C7_union_defined_iff_intersection {P : Type} [TimeResolution P]
    (x y : TimeRange P) :
    ((union x y).isSome ↔ (intersection x y).isSome) ∧
    ((intersection x y).isSome ↔ max x.start y.start ≤ min x.end_ y.end_) ∧
    (∀ r, union x y = some r →
      r.start = min x.start y.start ∧ r.end_ = max x.end_ y.end_) ∧
    (to_monotonic y.start = to_monotonic x.end_ + 1 → union x y = Option.none) := by
  have hinter : (intersection x y).isSome ↔
      max x.start y.start ≤ min x.end_ y.end_ := by
    rw [intersection]
    by_cases h : max x.start y.start ≤ min x.end_ y.end_ <;> simp [h]
  refine ⟨?_, hinter, ?_, ?_⟩
  · by_cases h : (intersection x y).isSome <;> simp [union, h]
  · intro r hr
    have hsome : (intersection x y).isSome := by
      by_contra h
      rw [union, if_neg h] at hr
      exact Option.noConfusion hr
    have hle : max x.start y.start ≤ min x.end_ y.end_ := hinter.mp hsome
    have hmn : min x.start y.start ≤ max x.end_ y.end_ :=
      le_trans min_le_max (le_trans hle min_le_max)
    have hr' : r = from_bounds (min x.start y.start) (max x.end_ y.end_) := by
      rw [union, if_pos hsome] at hr
      exact (Option.some.injEq _ _ ▸ hr).symm
    rw [hr', from_bounds, if_pos hmn]
    constructor
    · rfl
    · apply TimeResolution.monotonic_inj
      rw [TimeRange.end_]
      show to_monotonic (succ_n (min x.start y.start)
        (1 + (between (min x.start y.start) (max x.end_ y.end_)).toNat - 1)) = _
      rw [TimeResolution.succ_n_spec, TimeResolution.between_spec]
      rw [Nat.add_sub_cancel_left]
      rw [Int.toNat_of_nonneg (by
        have := (TimeResolution.le_iff (min x.start y.start) (max x.end_ y.end_)).mp hmn
        omega)]
      omega
  · intro hadj
    have hnot : ¬ (intersection x y).isSome := by
      rw [hinter]
      intro h
      have h1 : to_monotonic (max x.start y.start) ≤ to_monotonic (min x.end_ y.end_) :=
        (TimeResolution.le_iff _ _).mp h
      have h2 : to_monotonic y.start ≤ to_monotonic (max x.start y.start) :=
        (TimeResolution.le_iff _ _).mp (le_max_right _ _)
      have h3 : to_monotonic (min x.end_ y.end_) ≤ to_monotonic x.end_ :=
        (TimeResolution.le_iff _ _).mp (min_le_left _ _)
      omega
    rw [union, if_neg hnot]

/-- Claim C7, witness: the claim theorem applied to the overlapping day
ranges `[0..1]` and `[1..2]` (union `[0..2]`) and to the adjacent day
ranges `[0]` and `[1]` (no union). -/
theorem C7_union_defined_iff_intersection_witness :
    ((union (⟨⟨0⟩, 2⟩ : TimeRange Day) ⟨⟨1⟩, 2⟩).isSome ↔
      (intersection (⟨⟨0⟩, 2⟩ : TimeRange Day) ⟨⟨1⟩, 2⟩).isSome) ∧
    ((⟨⟨0⟩, 3⟩ : TimeRange Day).start =
        min (⟨⟨0⟩, 2⟩ : TimeRange Day).start (⟨⟨1⟩, 2⟩ : TimeRange Day).start ∧
      (⟨⟨0⟩, 3⟩ : TimeRange Day).end_ =
        max (⟨⟨0⟩, 2⟩ : TimeRange Day).end_ (⟨⟨1⟩, 2⟩ : TimeRange Day).end_) ∧
    union (⟨⟨0⟩, 1⟩ : TimeRange Day) ⟨⟨1⟩, 1⟩ = Option.none :=
  ⟨(C7_union_defined_iff_intersection (⟨⟨0⟩, 2⟩ : TimeRange Day) ⟨⟨1⟩, 2⟩).1,
   (C7_union_defined_iff_intersection (⟨⟨0⟩, 2⟩ : TimeRange Day) ⟨⟨1⟩, 2⟩).2.2.1
     ⟨⟨0⟩, 3⟩ (by decide),
   (C7_union_defined_iff_intersection (⟨⟨0⟩, 1⟩ : TimeRange Day) ⟨⟨1⟩, 1⟩).2.2.2
     (by decide)⟩

/-- Claim C8.  For every period of every resolution kind,
`pred(succ(p)) = p` and `succ(pred(p)) = p` — for each concrete kind
(`Day`, every `Week` start-day, `Month`, `Quarter`, `Year`, every
`Minutes<N>`) and for the `Zoned` wrapper whose `succ`/`pred` act on the
wrapped local resolution, carrying offset and zone unchanged. -/
theorem C8_pred_succ_roundtrip :
    (∀ p : Day, pred (succ p) = p ∧ succ (pred p) = p) ∧
    (∀ (sd : Nat) (p : Week sd), pred (succ p) = p ∧ succ (pred p) = p) ∧
    (∀ p : Month, pred (succ p) = p ∧ succ (pred p) = p) ∧
    (∀ p : Quarter, pred (succ p) = p ∧ succ (pred p) = p) ∧
    (∀ p : Year, pred (succ p) = p ∧ succ (pred p) = p) ∧
    (∀ (N : Nat) (p : Minutes N), pred (succ p) = p ∧ succ (pred p) = p) ∧
    (∀ (P : Type) [TimeResolution P] (z : Zoned P),
      Zoned.pred_n (Zoned.succ_n z 1) 1 = z ∧ Zoned.succ_n (Zoned.pred_n z 1) 1 = z) := by
  refine ⟨fun p => ⟨pred_succ p, succ_pred p⟩,
    fun sd p => ⟨pred_succ p, succ_pred p⟩,
    fun p => ⟨pred_succ p, succ_pred p⟩,
    fun p => ⟨pred_succ p, succ_pred p⟩,
    fun p => ⟨pred_succ p, succ_pred p⟩,
    fun N p => ⟨pred_succ p, succ_pred p⟩,
    fun P _ z => ⟨?_, ?_⟩⟩
  · cases z with
    | mk l off zo =>
        simp only [Zoned.succ_n, Zoned.pred_n, Zoned.mk.injEq, and_true]
        exact pred_succ l
  · cases z with
    | mk l off zo =>
        simp only [Zoned.succ_n, Zoned.pred_n, Zoned.mk.injEq, and_true]
        exact succ_pred l

/-- Claim C9.  The one-element range holding Year 2024 rescaled to
five-minute periods has length 366·288, to hours 366·24, to days 366 and
to months 12, and each of those rescaled ranges rescaled back to `Year`
is the original one-year range. -/
theorem C9_rescale_year_2024 :
    (TimeRange.rescale (Minutes 5) (⟨⟨2024⟩, 1⟩ : TimeRange Year)).len = 366 * 288 ∧
    (TimeRange.rescale (Minutes 60) (⟨⟨2024⟩, 1⟩ : TimeRange Year)).len = 366 * 24 ∧
    (TimeRange.rescale Day (⟨⟨2024⟩, 1⟩ : TimeRange Year)).len = 366 ∧
    (TimeRange.rescale Month (⟨⟨2024⟩, 1⟩ : TimeRange Year)).len = 12 ∧
    TimeRange.rescale Year
      (TimeRange.rescale (Minutes 5) (⟨⟨2024⟩, 1⟩ : TimeRange Year)) = ⟨⟨2024⟩, 1⟩ ∧
    TimeRange.rescale Year
      (TimeRange.rescale (Minutes 60) (⟨⟨2024⟩, 1⟩ : TimeRange Year)) = ⟨⟨2024⟩, 1⟩ ∧
    TimeRange.rescale Year
      (TimeRange.rescale Day (⟨⟨2024⟩, 1⟩ : TimeRange Year)) = ⟨⟨2024⟩, 1⟩ ∧
    TimeRange.rescale Year
      (TimeRange.rescale Month (⟨⟨2024⟩, 1⟩ : TimeRange Year)) = ⟨⟨2024⟩, 1⟩ := by
  decide

/-- Claim C10.  For a non-empty set of periods of size at most `u32::MAX`,
`from_set` returns `Some` of the range starting at the set's minimum with
length the set's cardinality (regardless of contiguity), and returns
`None` exactly when the set is empty or larger than `u32::MAX`. -/
theorem C10_from_set_min_length {P : Type} [TimeResolution P]
    (s : List P) (hs : s.Sorted (· < ·)) :
    (s ≠ [] → s.length ≤ 4294967295 →
      ∃ r, from_set s = some r ∧ r.start ∈ s ∧ (∀ x ∈ s, r.start ≤ x) ∧
        r.len = s.length) ∧
    (from_set s = Option.none ↔ s = [] ∨ 4294967295 < s.length) := by
  constructor
  · intro hne hlen
    match s, hs with
    | q :: qs, hs =>
        refine ⟨⟨q, (q :: qs).length⟩, ?_, List.mem_cons_self q qs,
          sorted_head_le q qs hs, rfl⟩
        show (if 4294967295 < (q :: qs).length then none
          else some (⟨q, (q :: qs).length⟩ : TimeRange P)) = _
        rw [if_neg (by omega)]
  · match s with
    | [] =>
        constructor
        · intro _
          exact Or.inl rfl
        · intro _
          rfl
    | q :: qs =>
        by_cases hlen : 4294967295 < (q :: qs).length
        · constructor
          · intro _
            exact Or.inr hlen
          · intro _
            show (if 4294967295 < (q :: qs).length then none
              else some (⟨q, (q :: qs).length⟩ : TimeRange P)) = _
            rw [if_pos hlen]
        · constructor
          · intro h
            exfalso
            revert h
            show (if 4294967295 < (q :: qs).length then none
              else some (⟨q, (q :: qs).length⟩ : TimeRange P)) = Option.none → False
            rw [if_neg hlen]
            intro h
            exact Option.noConfusion h
          · intro h
            rcases h with h | h
            · exact absurd h (by simp)
            · exact absurd h hlen

/-- Claim C10, witness: the claim theorem applied to the non-contiguous
two-element day set `{Day 1, Day 5}`: `from_set` returns the range
starting at the minimum `Day 1` with length 2. -/
theorem C10_from_set_min_length_witness :
    ∃ r, from_set [Day.mk 1, Day.mk 5] = some r ∧
      r.start ∈ [Day.mk 1, Day.mk 5] ∧
      (∀ x ∈ [Day.mk 1, Day.mk 5], r.start ≤ x) ∧
      r.len = [Day.mk 1, Day.mk 5].length :=
  (C10_from_set_min_length [Day.mk 1, Day.mk 5] (by decide)).1
    (by decide) (by decide)

end Resolution
